import Mathlib

/-! Verification development for the `text_history` library: a versioned
plain-text document edited through insert/delete/replace actions, with a
log-compaction (`optimize`) pass run by `get_actions`.  The definitions
below are a shallow embedding of `text_history.py`. -/

namespace TextHist

/-- Python strings are modelled as lists of characters. -/
abbrev Text := List Char

/-- One constructor per raise site of the source (`ValueError` with a given
message), plus `indexError` for the `IndexError` that `self._actions[-1]`
raises on an empty list in `get_actions`. -/
inductive Err where
  /-- `TextHistory.action`: "Action version differs from current text version." -/
  | versionMismatch
  /-- `get_actions`: "Versions can not be negative." -/
  | negVersion
  /-- `get_actions`: "Bad version range. (from_version < to_version)" -/
  | badRange
  /-- `get_actions`: "Given version out of range." -/
  | outOfRange
  /-- `get_actions`: `self._actions[-1]` on an empty log raises `IndexError`. -/
  | indexError
  /-- `InsertAction.apply`: "Insert position ... out of string length ...". -/
  | insertPosOut
  /-- `DeleteAction.apply`: "Pos out of string length." -/
  | deletePosOut
  /-- `DeleteAction.apply`: "Trying to delete symbols out of string." -/
  | deleteRangeOut
  /-- `ReplaceAction.apply`: "Insert position ... out of string length ...". -/
  | replacePosOut
  /-- `InsertAction.__init__` / `ReplaceAction.__init__`: "Pos can not be negative." -/
  | negPos
  /-- `DeleteAction.__init__`: "Pos and length can not be negative." -/
  | negPosLen
  /-- `Action.__init__`: "Wrong version values." -/
  | wrongVersions
  deriving DecidableEq

/-- The three concrete `Action` subclasses of the source, as a sum type.
Fields keep the source names (`text`, `pos`, `length`, `from_version`,
`to_version`).  Positions and versions are `Nat` because every constructed
action has passed the non-negativity checks of the Python constructors;
the public `TextHistory` operations below take `Int` inputs and perform
those checks before building an `Action`. -/
inductive Action where
  | insert (text : Text) (pos : Nat) (fromVersion toVersion : Nat)
  | delete (pos length : Nat) (fromVersion toVersion : Nat)
  | replace (text : Text) (pos : Nat) (fromVersion toVersion : Nat)
  deriving DecidableEq

instance : Inhabited Action := ⟨Action.insert [] 0 0 1⟩

/-- `Action.from_version` property. -/
def Action.fromVersion : Action → Nat
  | .insert _ _ v _ => v
  | .delete _ _ v _ => v
  | .replace _ _ v _ => v

/-- `Action.to_version` property. -/
def Action.toVersion : Action → Nat
  | .insert _ _ _ v => v
  | .delete _ _ _ v => v
  | .replace _ _ _ v => v

/-- `isinstance(a, InsertAction)`. -/
def Action.isInsert : Action → Bool
  | .insert _ _ _ _ => true
  | _ => false

/-- `isinstance(a, DeleteAction)`. -/
def Action.isDelete : Action → Bool
  | .delete _ _ _ _ => true
  | _ => false

/-- `isinstance(a, ReplaceAction)`. -/
def Action.isReplace : Action → Bool
  | .replace _ _ _ _ => true
  | _ => false

/-- A tag for the concrete Python class of an action. -/
def Action.kind : Action → Nat
  | .insert _ _ _ _ => 0
  | .delete _ _ _ _ => 1
  | .replace _ _ _ _ => 2

/-- The `apply` method of each `Action` subclass, translated from the
source; Python slicing `s[:p]` is `take p` and `s[p:]` is `drop p`,
both of which clamp exactly as Python slices do. -/
def Action.apply : Action → Text → Except Err Text
  | .insert t p _ _, s =>
    if s.length < p then .error .insertPosOut
    else .ok (s.take p ++ t ++ s.drop p)
  | .delete p l _ _, s =>
    if p > s.length then .error .deletePosOut
    else if p + l > s.length then .error .deleteRangeOut
    else .ok (s.take p ++ s.drop (p + l))
  | .replace t p _ _, s =>
    if s.length < p then .error .replacePosOut
    else .ok (s.take p ++ t ++ s.drop (p + t.length))

/-- The double-dispatched merge of the source: `f.merge(s)` calls
`s.merge_with_<class of f>(f)`, so inside `merge_with_delete` /
`merge_with_replace` the receiver `self` is the SECOND action of the pair
and the argument `action` is the FIRST; on success the FIRST action is
mutated in place and `True` is returned.  `mergePair f s` returns the
mutated value of the first action when the pair merges, and `none`
otherwise (every branch involving an `InsertAction`, and the
delete/replace cross pairs, return `None` in the source). -/
def mergePair : Action → Action → Option Action
  | .delete p1 l1 a1 b1, .delete p2 l2 a2 b2 =>
    if p1 = p2 then
      some (.delete p1 (l1 + l2) (if a1 < a2 then a1 else a2)
        (if a1 < a2 then b2 else b1))
    else none
  | .replace t1 p1 a1 b1, .replace t2 p2 a2 b2 =>
    if p1 = p2 ∧ t1.length ≤ t2.length then
      if b1 < b2 then some (.replace t2 p1 a1 b2)
      else some (.replace t1 p1 a2 b1)
    else none
  | _, _ => none

/-- `TextHistory.optimize`, translated from the source while loop: the
cursor pair is `(a, b)`; when they merge the merged value `m` replaces the
first and the second is popped, and since `idx` is incremented on every
iteration the scan continues with the pair AFTER `m`; when they do not
merge the scan continues with `b` as the new first element. -/
def optimize : List Action → List Action
  | [] => []
  | [a] => [a]
  | a :: b :: rest =>
    match mergePair a b with
    | some m => m :: optimize rest
    | none => a :: optimize (b :: rest)

/-- The `TextHistory` object state: current text, the live action log
`_actions`, and the current version. -/
structure TextHistory where
  text : Text
  actions : List Action
  version : Nat
  deriving DecidableEq

/-- `TextHistory.action` (the commit primitive).  Python mutates `self`;
here the possibly-updated state is returned together with the result:
on any raise the state component equals the input state, matching the
source, where `self._text` is only assigned after `act.apply` returns. -/
def TextHistory.action (h : TextHistory) (act : Action) :
    TextHistory × Except Err Nat :=
  if act.fromVersion ≠ h.version then (h, .error .versionMismatch)
  else
    match act.apply h.text with
    | .error e => (h, .error e)
    | .ok t =>
      (⟨t, h.actions ++ [act], act.toVersion⟩, .ok act.toVersion)

/-- `TextHistory.insert`: `pos=None` resolves to the current text length;
the `InsertAction` constructor rejects a negative position, then
`self.action` commits. -/
def TextHistory.insert (h : TextHistory) (t : Text) (pos : Option Int) :
    TextHistory × Except Err Nat :=
  let p : Int := pos.getD h.text.length
  if p < 0 then (h, .error .negPos)
  else h.action (.insert t p.toNat h.version (h.version + 1))

/-- `TextHistory.delete`: the `DeleteAction` constructor rejects a negative
position or length, then `self.action` commits. -/
def TextHistory.delete (h : TextHistory) (pos length : Int) :
    TextHistory × Except Err Nat :=
  if pos < 0 ∨ length < 0 then (h, .error .negPosLen)
  else h.action (.delete pos.toNat length.toNat h.version (h.version + 1))

/-- `TextHistory.replace`: `pos=None` resolves to the current text length;
the `ReplaceAction` constructor rejects a negative position, then
`self.action` commits. -/
def TextHistory.replace (h : TextHistory) (t : Text) (pos : Option Int) :
    TextHistory × Except Err Nat :=
  let p : Int := pos.getD h.text.length
  if p < 0 then (h, .error .negPos)
  else h.action (.replace t p.toNat h.version (h.version + 1))

/-- `TextHistory.get_actions`, value view: the list the call returns.
`from_version=None` defaults to `0`, `to_version=None` defaults to `inf`
(so the out-of-range check is skipped and the upper filter bound is
vacuous).  With a finite `to_version`, Python evaluates
`self._actions[-1]` before the comparison, which raises `IndexError` on an
empty log.  The filtered slice is then compacted by `optimize`. -/
def TextHistory.get_actions (h : TextHistory) (fromV toV : Option Int) :
    Except Err (List Action) :=
  let fv : Int := fromV.getD 0
  match toV with
  | none =>
    if fv < 0 then .error .negVersion
    else .ok (optimize (h.actions.filter fun a => decide (fv ≤ (a.fromVersion : Int))))
  | some tv =>
    if fv < 0 ∨ tv < 0 then .error .negVersion
    else if fv > tv then .error .badRange
    else
      match h.actions.getLast? with
      | none => .error .indexError
      | some last =>
        if tv > (last.toVersion : Int) then .error .outOfRange
        else .ok (optimize (h.actions.filter fun a =>
          decide (fv ≤ (a.fromVersion : Int)) && decide ((a.toVersion : Int) ≤ tv)))

/-- Replaying a list of actions over a text by `apply`, in order. -/
def replay : List Action → Text → Except Err Text
  | [], t => .ok t
  | a :: rest, t =>
    match a.apply t with
    | .error e => .error e
    | .ok u => replay rest u

/-- `TextHistory.optimize`, aliasing view.  In Python the filtered slice
holds REFERENCES to the very `Action` objects stored in `self._actions`,
and a merge mutates the first object of the pair in place; so the live
log is affected by `get_actions`.  Here the log is the value list `log`
and the slice is the list of log indices of the filtered actions; a merge
writes the merged value back into the log at the index of the first
action of the pair and drops the index of the second; the scan otherwise
follows `optimize`.  Returns the updated log and the surviving indices. -/
def optimizeIdx : List Action → List Nat → List Action × List Nat
  | log, [] => (log, [])
  | log, [i] => (log, [i])
  | log, i :: j :: rest =>
    match mergePair (log.getD i default) (log.getD j default) with
    | some m =>
      let r := optimizeIdx (log.set i m) rest
      (r.1, i :: r.2)
    | none =>
      let r := optimizeIdx log (j :: rest)
      (r.1, i :: r.2)

/-- `TextHistory.get_actions`, state view: same checks and filter as
`TextHistory.get_actions`, but also returning the state after the call,
with the in-place mutations that compaction performs on the shared
`Action` objects of the live log (via `optimizeIdx`).  The returned slice
reads the surviving indices out of the final log, as the Python list of
references does. -/
def TextHistory.get_actionsMut (h : TextHistory) (fromV toV : Option Int) :
    TextHistory × Except Err (List Action) :=
  let fv : Int := fromV.getD 0
  match toV with
  | none =>
    if fv < 0 then (h, .error .negVersion)
    else
      let idxs := (List.range h.actions.length).filter fun i =>
        decide (fv ≤ ((h.actions.getD i default).fromVersion : Int))
      let r := optimizeIdx h.actions idxs
      (⟨h.text, r.1, h.version⟩, .ok (r.2.map fun i => r.1.getD i default))
  | some tv =>
    if fv < 0 ∨ tv < 0 then (h, .error .negVersion)
    else if fv > tv then (h, .error .badRange)
    else
      match h.actions.getLast? with
      | none => (h, .error .indexError)
      | some last =>
        if tv > (last.toVersion : Int) then (h, .error .outOfRange)
        else
          let idxs := (List.range h.actions.length).filter fun i =>
            decide (fv ≤ ((h.actions.getD i default).fromVersion : Int)) &&
              decide (((h.actions.getD i default).toVersion : Int) ≤ tv)
          let r := optimizeIdx h.actions idxs
          (⟨h.text, r.1, h.version⟩, .ok (r.2.map fun i => r.1.getD i default))

/-- The `pos` property of each subclass. -/
def Action.pos : Action → Nat
  | .insert _ p _ _ => p
  | .delete p _ _ _ => p
  | .replace _ p _ _ => p

/-- The Python `==` comparison on two DISTINCT action objects.
`DeleteAction.__eq__` returns `True` iff the other object is a
`DeleteAction` with the same `pos` (ignoring length and versions), and
`False` otherwise; `ReplaceAction.__eq__` likewise with `ReplaceAction`.
`InsertAction` defines no `__eq__`, so `insert == insert` falls back to
object identity, which is `False` for two distinct objects, and
`insert == delete` / `insert == replace` resolve through the reflected
`__eq__` of the right operand, again `False`. -/
def pyEq : Action → Action → Bool
  | .delete p1 _ _ _, .delete p2 _ _ _ => decide (p1 = p2)
  | .replace _ p1 _ _, .replace _ p2 _ _ => decide (p1 = p2)
  | _, _ => false

/-- `ChainedFrom v as`: the actions of `as` perform the consecutive
version steps `v → v+1 → ...`, which is exactly the shape of the live
log of a history built by successful edits from version `v`. -/
def ChainedFrom : Nat → List Action → Prop
  | _, [] => True
  | v, a :: rest => a.fromVersion = v ∧ a.toVersion = v + 1 ∧ ChainedFrom (v + 1) rest

/-- `WellChained as`: every action has a non-trivial version range and
each action ends where the next begins.  This is the invariant the
compaction scan preserves. -/
def WellChained : List Action → Prop
  | [] => True
  | [a] => a.fromVersion < a.toVersion
  | a :: b :: rest =>
    a.fromVersion < a.toVersion ∧ a.toVersion = b.fromVersion ∧ WellChained (b :: rest)

/-- One successful public edit (`insert`, `delete` or `replace`). -/
inductive Step : TextHistory → TextHistory → Prop where
  | insert (h : TextHistory) (t : Text) (p : Option Int) (h2 : TextHistory) (v : Nat) :
      h.insert t p = (h2, .ok v) → Step h h2
  | delete (h : TextHistory) (pos len : Int) (h2 : TextHistory) (v : Nat) :
      h.delete pos len = (h2, .ok v) → Step h h2
  | replace (h : TextHistory) (t : Text) (p : Option Int) (h2 : TextHistory) (v : Nat) :
      h.replace t p = (h2, .ok v) → Step h h2

/-- `Reach h0 h`: the state `h` arises from `h0` by a sequence of
successful public edits. -/
inductive Reach (h0 : TextHistory) : TextHistory → Prop where
  | refl : Reach h0 h0
  | tail (h1 h2 : TextHistory) : Reach h0 h1 → Step h1 h2 → Reach h0 h2

instance {ε α : Type} [DecidableEq ε] [DecidableEq α] : DecidableEq (Except ε α) :=
  fun x y =>
    match x, y with
    | .error e, .error f =>
      if h : e = f then .isTrue (by rw [h]) else .isFalse (by intro hc; cases hc; exact h rfl)
    | .error _, .ok _ => .isFalse (by intro hc; cases hc)
    | .ok _, .error _ => .isFalse (by intro hc; cases hc)
    | .ok a, .ok b =>
      if h : a = b then .isTrue (by rw [h]) else .isFalse (by intro hc; cases hc; exact h rfl)

/-! Theorems. -/

/-- C3 counterexample: three adjacent pairwise-mergeable Delete actions at
the same position do NOT compact to a single action: because `idx` is
incremented even after a successful merge, the scan skips the pair formed
by the merged action and its new successor, and two actions survive. -/
theorem C3_counterexample :
    (optimize [Action.delete 0 1 0 1, Action.delete 0 1 1 2,
      Action.delete 0 1 2 3]).length ≠ 1 := by decide

/-- C3 amended: when the pair `(slice[i], slice[i+1])` is mergeable, the
FIRST action of the pair is the one mutated to absorb the second, the
SECOND is dropped from the slice, and the cursor DOES advance, so the
merged action is not reconsidered against its new successor; consequently
a slice of three adjacent pairwise-mergeable Delete actions at the same
position compacts to exactly two actions. -/
theorem C3_merge_scan :
    (∀ (a b m : Action) (rest : List Action), mergePair a b = some m →
      optimize (a :: b :: rest) = m :: optimize rest) ∧
    (∀ (p l1 l2 l3 a1 b1 a2 b2 a3 b3 : Nat),
      (optimize [Action.delete p l1 a1 b1, Action.delete p l2 a2 b2,
        Action.delete p l3 a3 b3]).length = 2) := by
  constructor
  · intro a b m rest hm
    simp [optimize, hm]
  · intro p l1 l2 l3 a1 b1 a2 b2 a3 b3
    simp [optimize, mergePair]

/-- C3 witness: the amended scan behaviour at concrete inputs. -/
theorem C3_merge_scan_witness :
    optimize [Action.delete 2 1 0 1, Action.delete 2 2 1 2] = [Action.delete 2 3 0 2] ∧
    (optimize [Action.delete 7 1 0 1, Action.delete 7 1 1 2,
      Action.delete 7 1 2 3]).length = 2 :=
  ⟨by rw [C3_merge_scan.1 (Action.delete 2 1 0 1) (Action.delete 2 2 1 2)
      (Action.delete 2 3 0 2) [] (by decide)]; rfl,
   C3_merge_scan.2 7 1 1 1 0 1 1 2 2 3⟩

/-- C4 counterexample: take an earlier Replace whose text ("ab") is
strictly longer than the text of the later Replace ("a"), both at
position 0.  The claim predicts the pair merges (earlier text at least as
long as the later); the code does not merge it, because the source
condition `len(self._text) >= len(action._text)` has `self` bound to the
SECOND action of the pair, so it requires the LATER text to be at least
as long as the earlier one. -/
theorem C4_counterexample :
    ¬ ((mergePair (Action.replace ['a', 'b'] 0 0 1)
        (Action.replace ['a'] 0 1 2)).isSome = true ↔
      ((Action.replace (['a', 'b'] : Text) 0 0 1).pos =
          (Action.replace (['a'] : Text) 0 1 2).pos ∧
        (['a'] : Text).length ≤ (['a', 'b'] : Text).length)) := by decide

/-- C4 amended: an adjacent pair of Replace actions merges iff both have
the same `pos` and the LATER replacement text is at least as long as the
EARLIER one; the first action of the pair survives.  If the first action
has the strictly smaller `to_version` (the generic case), the survivor
takes the second action's text and `to_version`; otherwise the survivor
keeps its own text and `to_version` and only takes the second action's
`from_version`, without updating the stored text. -/
theorem C4_replace_merge_rule (t1 t2 : Text) (p1 p2 a1 b1 a2 b2 : Nat) :
    optimize [Action.replace t1 p1 a1 b1, Action.replace t2 p2 a2 b2] =
      if p1 = p2 ∧ t1.length ≤ t2.length then
        [if b1 < b2 then Action.replace t2 p1 a1 b2 else Action.replace t1 p1 a2 b1]
      else [Action.replace t1 p1 a1 b1, Action.replace t2 p2 a2 b2] := by
  by_cases hc : p1 = p2 ∧ t1.length ≤ t2.length
  · by_cases hb : b1 < b2 <;> simp [optimize, mergePair, hc, hb]
  · simp [optimize, mergePair, hc]

/-- C9: an Insert action never merges on either side, and Delete/Replace
never merge with each other in either order; in particular two adjacent
Insert actions (same position or not) always survive compaction as two
separate entries. -/
theorem C9_insert_never_merges :
    (∀ a b : Action, a.isInsert = true ∨ b.isInsert = true → mergePair a b = none) ∧
    (∀ a b : Action, (a.isDelete = true ∧ b.isReplace = true) ∨
      (a.isReplace = true ∧ b.isDelete = true) → mergePair a b = none) ∧
    (∀ (t1 : Text) (p : Nat) (v1 w1 : Nat) (t2 : Text) (v2 w2 : Nat),
      optimize [Action.insert t1 p v1 w1, Action.insert t2 p v2 w2] =
        [Action.insert t1 p v1 w1, Action.insert t2 p v2 w2]) := by
  refine ⟨?_, ?_, ?_⟩
  · intro a b hab
    cases a <;> cases b <;> simp_all [mergePair, Action.isInsert]
  · intro a b hab
    cases a <;> cases b <;>
      simp_all [mergePair, Action.isDelete, Action.isReplace]
  · intro t1 p v1 w1 t2 v2 w2
    simp [optimize, mergePair]

/-- C9 witness: concrete non-merges of each shape. -/
theorem C9_insert_never_merges_witness :
    mergePair (Action.insert ['a'] 0 0 1) (Action.insert ['b'] 0 1 2) = none ∧
    mergePair (Action.insert ['a'] 0 0 1) (Action.delete 0 1 1 2) = none ∧
    mergePair (Action.delete 0 1 0 1) (Action.insert ['a'] 0 1 2) = none ∧
    mergePair (Action.delete 0 1 0 1) (Action.replace ['c'] 0 1 2) = none ∧
    mergePair (Action.replace ['c'] 0 0 1) (Action.delete 0 1 1 2) = none ∧
    optimize [Action.insert ['a'] 2 0 1, Action.insert ['b'] 2 1 2] =
      [Action.insert ['a'] 2 0 1, Action.insert ['b'] 2 1 2] :=
  ⟨C9_insert_never_merges.1 _ _ (Or.inl rfl),
   C9_insert_never_merges.1 _ _ (Or.inl rfl),
   C9_insert_never_merges.1 _ _ (Or.inr rfl),
   C9_insert_never_merges.2.1 _ _ (Or.inl ⟨rfl, rfl⟩),
   C9_insert_never_merges.2.1 _ _ (Or.inr ⟨rfl, rfl⟩),
   C9_insert_never_merges.2.2 ['a'] 2 0 1 ['b'] 1 2⟩

/-- C10: the `__eq__` of `DeleteAction` compares only the class and `pos`
(length and versions are ignored), the `__eq__` of `ReplaceAction`
compares only the class and `pos` (text and versions are ignored), and
actions of different concrete classes never compare equal. -/
theorem C10_eq_kind_pos :
    (∀ p1 l1 a1 b1 p2 l2 a2 b2 : Nat,
      (pyEq (Action.delete p1 l1 a1 b1) (Action.delete p2 l2 a2 b2) = true ↔ p1 = p2)) ∧
    (∀ (t1 : Text) (p1 a1 b1 : Nat) (t2 : Text) (p2 a2 b2 : Nat),
      (pyEq (Action.replace t1 p1 a1 b1) (Action.replace t2 p2 a2 b2) = true ↔ p1 = p2)) ∧
    (∀ a b : Action, a.kind ≠ b.kind → pyEq a b = false) := by
  refine ⟨?_, ?_, ?_⟩
  · intro p1 l1 a1 b1 p2 l2 a2 b2
    simp [pyEq]
  · intro t1 p1 a1 b1 t2 p2 a2 b2
    simp [pyEq]
  · intro a b hk
    cases a <;> cases b <;> simp_all [pyEq, Action.kind]

/-- C10 witness: equality ignores lengths, texts and versions; distinct
kinds are never equal. -/
theorem C10_eq_kind_pos_witness :
    pyEq (Action.delete 3 1 0 1) (Action.delete 3 9 4 7) = true ∧
    pyEq (Action.replace ['a'] 2 0 1) (Action.replace ['x', 'y'] 2 5 9) = true ∧
    pyEq (Action.insert ['a'] 0 0 1) (Action.delete 0 1 0 1) = false :=
  ⟨(C10_eq_kind_pos.1 3 1 0 1 3 9 4 7).mpr rfl,
   (C10_eq_kind_pos.2.1 ['a'] 2 0 1 ['x', 'y'] 2 5 9).mpr rfl,
   C10_eq_kind_pos.2.2 _ _ (by decide)⟩

/-- C5: two adjacent Delete actions of a history slice (the first action
ends its version step where the second begins, and both steps are
non-trivial, as every logged action is) merge exactly when they share
`pos`; the merged action sums the lengths and spans from the smaller
`from_version` to the larger `to_version`.  Concretely, committing
Delete(pos=5,length=2) and then Delete(pos=5,length=3) on a ten-character
text and calling `get_actions()` yields exactly one
Delete(pos=5,length=5,from_version=0,to_version=2). -/
theorem C5_delete_merge_rule :
    (∀ p1 l1 a1 b1 p2 l2 a2 b2 : Nat, a1 < b1 → b1 = a2 → a2 < b2 →
      ((mergePair (Action.delete p1 l1 a1 b1) (Action.delete p2 l2 a2 b2)).isSome
          = true ↔ p1 = p2) ∧
      (p1 = p2 → mergePair (Action.delete p1 l1 a1 b1) (Action.delete p2 l2 a2 b2) =
        some (Action.delete p1 (l1 + l2) (min a1 a2) (max b1 b2)))) ∧
    ((((TextHistory.mk (List.replicate 10 'a') [] 0).delete 5 2).1.delete 5 3).1.get_actions
      none none = .ok [Action.delete 5 5 0 2]) := by
  constructor
  · intro p1 l1 a1 b1 p2 l2 a2 b2 hab hba hbb
    constructor
    · by_cases hp : p1 = p2 <;> simp [mergePair, hp]
    · intro hp
      have ha12 : a1 < a2 := hba ▸ hab
      have hmin : min a1 a2 = a1 := Nat.min_eq_left (Nat.le_of_lt ha12)
      have hmax : max b1 b2 = b2 := Nat.max_eq_right (Nat.le_of_lt (hba ▸ hbb))
      simp [mergePair, hp, ha12, hmin, hmax]
  · decide

/-- C5 witness: the merge rule applied to the two deletes of the concrete
scenario. -/
theorem C5_delete_merge_rule_witness :
    (mergePair (Action.delete 5 2 0 1) (Action.delete 5 3 1 2)).isSome = true ∧
    mergePair (Action.delete 5 2 0 1) (Action.delete 5 3 1 2) =
      some (Action.delete 5 5 0 2) :=
  ⟨(C5_delete_merge_rule.1 5 2 0 1 5 3 1 2 (by decide) rfl (by decide)).1.mpr rfl,
   ((C5_delete_merge_rule.1 5 2 0 1 5 3 1 2 (by decide) rfl (by decide)).2 rfl).trans
     (by decide)⟩

/-- C2 (code behaviour at the failing input): `get_actions` is NOT
read-only.  The filtered slice holds the same `Action` objects as the
live log, and compaction widens the surviving object of each merged pair
in place, so the call mutates the log: after committing
Delete(5,2) and Delete(5,3) on ten characters, the first `get_actions()`
returns `[Delete(5,5,0,2)]` and silently turns the logged Delete(5,2,0,1)
into Delete(5,5,0,2); a second identical call then merges again and
returns `[Delete(5,8,0,2)]`. -/
theorem C2_get_actions_mutates_log :
    ((((TextHistory.mk (List.replicate 10 'a') [] 0).delete 5 2).1.delete 5 3).1.get_actionsMut
        none none).2 = .ok [Action.delete 5 5 0 2] ∧
    ((((TextHistory.mk (List.replicate 10 'a') [] 0).delete 5 2).1.delete 5 3).1.get_actionsMut
        none none).1.actions ≠
      ((((TextHistory.mk (List.replicate 10 'a') [] 0).delete 5 2).1.delete 5 3).1).actions ∧
    (((((TextHistory.mk (List.replicate 10 'a') [] 0).delete 5 2).1.delete 5 3).1.get_actionsMut
        none none).1.get_actionsMut none none).2 = .ok [Action.delete 5 8 0 2] := by
  refine ⟨by decide, by decide, by decide⟩

/-- Helper: a failing commit leaves the state untouched. -/
theorem action_error_frame (h : TextHistory) (act : Action) (e : Err)
    (he : (h.action act).2 = .error e) : (h.action act).1 = h := by
  unfold TextHistory.action at he ⊢
  split
  · rfl
  · rename_i hv
    split
    · rfl
    · rename_i t heq
      rw [if_neg hv] at he
      simp [heq] at he

/-- Helper: shape of a successful commit. -/
theorem action_ok_shape (h : TextHistory) (act : Action) (h2 : TextHistory) (v : Nat)
    (he : h.action act = (h2, .ok v)) :
    act.fromVersion = h.version ∧ act.apply h.text = .ok h2.text ∧
      h2.actions = h.actions ++ [act] ∧ h2.version = act.toVersion ∧ v = act.toVersion := by
  unfold TextHistory.action at he
  split at he
  · exact absurd (congrArg Prod.snd he) (by simp)
  · rename_i hv
    split at he
    · exact absurd (congrArg Prod.snd he) (by simp)
    · rename_i t heq
      have h1 := congrArg Prod.fst he
      have h2e := congrArg Prod.snd he
      simp only [] at h1 h2e
      push_neg at hv
      subst h1
      have h2v : act.toVersion = v := by
        simpa using h2e
      exact ⟨hv, by simp [heq], rfl, rfl, h2v.symm⟩

/-- C6: the commit primitive `TextHistory.action` fails with the version
mismatch error whenever the action's `from_version` differs from the
current version; every failed commit and every failed public edit leaves
the state (text, version, log) exactly as it was; and a successful commit
updates text, log and version together. -/
theorem C6_commit_atomic :
    (∀ (h : TextHistory) (act : Action), act.fromVersion ≠ h.version →
      h.action act = (h, .error .versionMismatch)) ∧
    (∀ (h : TextHistory) (act : Action) (e : Err),
      (h.action act).2 = .error e → (h.action act).1 = h) ∧
    (∀ (h : TextHistory) (act : Action) (h2 : TextHistory) (v : Nat),
      h.action act = (h2, .ok v) →
        act.apply h.text = .ok h2.text ∧ h2.actions = h.actions ++ [act] ∧
          h2.version = act.toVersion ∧ v = act.toVersion) ∧
    (∀ (h : TextHistory) (t : Text) (p : Option Int) (e : Err),
      (h.insert t p).2 = .error e → (h.insert t p).1 = h) ∧
    (∀ (h : TextHistory) (pos len : Int) (e : Err),
      (h.delete pos len).2 = .error e → (h.delete pos len).1 = h) ∧
    (∀ (h : TextHistory) (t : Text) (p : Option Int) (e : Err),
      (h.replace t p).2 = .error e → (h.replace t p).1 = h) := by
  refine ⟨?_, action_error_frame, ?_, ?_, ?_, ?_⟩
  · intro h act hv
    simp [TextHistory.action, hv]
  · intro h act h2 v he
    exact (action_ok_shape h act h2 v he).2
  · intro h t p e he
    simp only [TextHistory.insert] at he ⊢
    by_cases hp : (p.getD (h.text.length : Int)) < 0
    · rw [if_pos hp]
    · rw [if_neg hp] at he ⊢
      exact action_error_frame _ _ _ he
  · intro h pos len e he
    simp only [TextHistory.delete] at he ⊢
    by_cases hp : pos < 0 ∨ len < 0
    · rw [if_pos hp]
    · rw [if_neg hp] at he ⊢
      exact action_error_frame _ _ _ he
  · intro h t p e he
    simp only [TextHistory.replace] at he ⊢
    by_cases hp : (p.getD (h.text.length : Int)) < 0
    · rw [if_pos hp]
    · rw [if_neg hp] at he ⊢
      exact action_error_frame _ _ _ he

/-- C6 witness: a stale commit, each kind of failed edit, and a
successful commit, all at concrete states. -/
theorem C6_commit_atomic_witness :
    (TextHistory.mk ['a'] [] 0).action (Action.delete 0 1 1 2) =
      (TextHistory.mk ['a'] [] 0, .error .versionMismatch) ∧
    ((TextHistory.mk ['a'] [] 0).action (Action.delete 0 5 0 1)).1 =
      TextHistory.mk ['a'] [] 0 ∧
    ((Action.delete 0 1 0 1).apply ['a'] = .ok [] ∧
      (TextHistory.mk [] [Action.delete 0 1 0 1] 1).actions = [] ++ [Action.delete 0 1 0 1] ∧
      (TextHistory.mk [] [Action.delete 0 1 0 1] 1).version = (Action.delete 0 1 0 1).toVersion ∧
      1 = (Action.delete 0 1 0 1).toVersion) ∧
    ((TextHistory.mk ['a'] [] 0).insert ['b'] (some (-1))).1 = TextHistory.mk ['a'] [] 0 ∧
    ((TextHistory.mk ['a', 'b'] [] 0).delete 1 5).1 = TextHistory.mk ['a', 'b'] [] 0 ∧
    ((TextHistory.mk ['a'] [] 0).replace ['b'] (some 2)).1 = TextHistory.mk ['a'] [] 0 :=
  ⟨C6_commit_atomic.1 (TextHistory.mk ['a'] [] 0) (Action.delete 0 1 1 2) (by decide),
   C6_commit_atomic.2.1 (TextHistory.mk ['a'] [] 0) (Action.delete 0 5 0 1)
     .deleteRangeOut (by decide),
   C6_commit_atomic.2.2.1 (TextHistory.mk ['a'] [] 0) (Action.delete 0 1 0 1)
     (TextHistory.mk [] [Action.delete 0 1 0 1] 1) 1 (by decide),
   C6_commit_atomic.2.2.2.1 (TextHistory.mk ['a'] [] 0) ['b'] (some (-1))
     .negPos (by decide),
   C6_commit_atomic.2.2.2.2.1 (TextHistory.mk ['a', 'b'] [] 0) 1 5
     .deleteRangeOut (by decide),
   C6_commit_atomic.2.2.2.2.2 (TextHistory.mk ['a'] [] 0) ['b'] (some 2)
     .replacePosOut (by decide)⟩

/-- Helper: a successful public edit appends one action spanning exactly
the version step of the pre-state. -/
theorem step_shape (h h2 : TextHistory) (hs : Step h h2) :
    ∃ act : Action, act.fromVersion = h.version ∧ act.toVersion = h.version + 1 ∧
      act.apply h.text = .ok h2.text ∧ h2.actions = h.actions ++ [act] ∧
      h2.version = h.version + 1 := by
  cases hs with
  | insert t p _ v he =>
    simp only [TextHistory.insert] at he
    by_cases hp : (p.getD (h.text.length : Int)) < 0
    · rw [if_pos hp] at he
      exact absurd (congrArg Prod.snd he) (by simp)
    · rw [if_neg hp] at he
      obtain ⟨hfv, happ, hacts, hver, hv⟩ := action_ok_shape _ _ _ _ he
      exact ⟨Action.insert t (p.getD (h.text.length : Int)).toNat h.version
        (h.version + 1), rfl, rfl, happ, hacts, hver⟩
  | delete pos len _ v he =>
    simp only [TextHistory.delete] at he
    by_cases hp : pos < 0 ∨ len < 0
    · rw [if_pos hp] at he
      exact absurd (congrArg Prod.snd he) (by simp)
    · rw [if_neg hp] at he
      obtain ⟨hfv, happ, hacts, hver, hv⟩ := action_ok_shape _ _ _ _ he
      exact ⟨Action.delete pos.toNat len.toNat h.version (h.version + 1),
        rfl, rfl, happ, hacts, hver⟩
  | replace t p _ v he =>
    simp only [TextHistory.replace] at he
    by_cases hp : (p.getD (h.text.length : Int)) < 0
    · rw [if_pos hp] at he
      exact absurd (congrArg Prod.snd he) (by simp)
    · rw [if_neg hp] at he
      obtain ⟨hfv, happ, hacts, hver, hv⟩ := action_ok_shape _ _ _ _ he
      exact ⟨Action.replace t (p.getD (h.text.length : Int)).toNat h.version
        (h.version + 1), rfl, rfl, happ, hacts, hver⟩

/-- Helper: extending a consecutive chain by one action at the end. -/
theorem chainedFrom_append (v : Nat) (as : List Action) (a : Action)
    (hc : ChainedFrom v as) (hf : a.fromVersion = v + as.length)
    (ht : a.toVersion = v + as.length + 1) : ChainedFrom v (as ++ [a]) := by
  induction as generalizing v with
  | nil =>
    simp only [List.length_nil, Nat.add_zero] at hf ht
    exact ⟨hf, ht, trivial⟩
  | cons b rest ih =>
    obtain ⟨h1, h2, h3⟩ := hc
    simp only [List.length_cons] at hf ht
    exact ⟨h1, h2, ih (v + 1) h3 (by omega) (by omega)⟩

/-- Helper: every action of a consecutive chain ends no later than the
end of the chain. -/
theorem chainedFrom_toVersion_le (v : Nat) (as : List Action) (hc : ChainedFrom v as) :
    ∀ a ∈ as, a.toVersion ≤ v + as.length := by
  induction as generalizing v with
  | nil => simp
  | cons b rest ih =>
    obtain ⟨h1, h2, h3⟩ := hc
    intro a ha
    rcases List.mem_cons.mp ha with rfl | ha2
    · simp only [List.length_cons]
      omega
    · have := ih (v + 1) h3 a ha2
      simp only [List.length_cons]
      omega

/-- Helper: the last action of a consecutive chain ends at the version
reached by the whole chain. -/
theorem chainedFrom_getLast (v : Nat) (as : List Action) (last : Action)
    (hc : ChainedFrom v as) (hl : as.getLast? = some last) :
    last.toVersion = v + as.length := by
  induction as generalizing v with
  | nil => simp at hl
  | cons b rest ih =>
    obtain ⟨h1, h2, h3⟩ := hc
    cases rest with
    | nil =>
      simp only [List.getLast?_singleton, Option.some.injEq] at hl
      subst hl
      simp only [List.length_cons, List.length_nil]
      omega
    | cons c rest2 =>
      have hl2 : (c :: rest2).getLast? = some last := by
        rw [List.getLast?_cons_cons] at hl
        exact hl
      have hres := ih (v + 1) h3 hl2
      simp only [List.length_cons] at hres ⊢
      omega

/-- Helper: a consecutive chain is well chained. -/
theorem chainedFrom_wellChained (v : Nat) (as : List Action) (hc : ChainedFrom v as) :
    WellChained as := by
  induction as generalizing v with
  | nil => trivial
  | cons b rest ih =>
    obtain ⟨h1, h2, h3⟩ := hc
    cases rest with
    | nil =>
      show b.fromVersion < b.toVersion
      omega
    | cons c rest2 =>
      obtain ⟨h4, h5, h6⟩ := h3
      exact ⟨by omega, by omega, ih (v + 1) ⟨h4, h5, h6⟩⟩

/-- Helper: the head of a well-chained list has a non-trivial range. -/
theorem wellChained_head (a : Action) (l : List Action) (hw : WellChained (a :: l)) :
    a.fromVersion < a.toVersion := by
  cases l with
  | nil => exact hw
  | cons b r => exact hw.1

/-- Helper: the tail of a well-chained list is well chained. -/
theorem wellChained_tail (a : Action) (l : List Action) (hw : WellChained (a :: l)) :
    WellChained l := by
  cases l with
  | nil => trivial
  | cons b r => exact hw.2.2

/-- Helper: replacing the head by an action with the same end keeps the
list well chained. -/
theorem wellChained_replace_head (m b : Action) (rest : List Action)
    (hto : m.toVersion = b.toVersion) (hlt : m.fromVersion < m.toVersion)
    (hw : WellChained (b :: rest)) : WellChained (m :: rest) := by
  cases rest with
  | nil => exact hlt
  | cons c r => exact ⟨hlt, hto.trans hw.2.1, hw.2.2⟩

/-- Helper: a merged pair of chained actions spans the union of the two
ranges. -/
theorem mergePair_versions (a b m : Action) (hm : mergePair a b = some m)
    (h1 : a.fromVersion < a.toVersion) (h2 : a.toVersion = b.fromVersion)
    (h3 : b.fromVersion < b.toVersion) :
    m.fromVersion = a.fromVersion ∧ m.toVersion = b.toVersion := by
  cases a with
  | insert t1 p1 a1 b1 => simp [mergePair] at hm
  | delete p1 l1 a1 b1 =>
    cases b with
    | insert t2 p2 a2 b2 => simp [mergePair] at hm
    | replace t2 p2 a2 b2 => simp [mergePair] at hm
    | delete p2 l2 a2 b2 =>
      simp only [mergePair] at hm
      simp only [Action.fromVersion, Action.toVersion] at h1 h2 h3 ⊢
      by_cases hp : p1 = p2
      · rw [if_pos hp] at hm
        have ha : a1 < a2 := by omega
        simp only [ha, if_true, Option.some.injEq] at hm
        subst hm
        exact ⟨rfl, rfl⟩
      · rw [if_neg hp] at hm
        simp at hm
  | replace t1 p1 a1 b1 =>
    cases b with
    | insert t2 p2 a2 b2 => simp [mergePair] at hm
    | delete p2 l2 a2 b2 => simp [mergePair] at hm
    | replace t2 p2 a2 b2 =>
      simp only [mergePair] at hm
      simp only [Action.fromVersion, Action.toVersion] at h1 h2 h3 ⊢
      by_cases hc : p1 = p2 ∧ t1.length ≤ t2.length
      · rw [if_pos hc] at hm
        have hb : b1 < b2 := by omega
        rw [if_pos hb] at hm
        simp only [Option.some.injEq] at hm
        subst hm
        exact ⟨rfl, rfl⟩
      · rw [if_neg hc] at hm
        simp at hm

/-- Helper: merging a chained pair preserves the text effect of applying
the two actions in order. -/
theorem mergePair_apply (a b m : Action) (t t1 t2 : Text) (hm : mergePair a b = some m)
    (h1 : a.fromVersion < a.toVersion) (h2 : a.toVersion = b.fromVersion)
    (h3 : b.fromVersion < b.toVersion)
    (ha : a.apply t = .ok t1) (hb : b.apply t1 = .ok t2) :
    m.apply t = .ok t2 := by
  cases a with
  | insert ta p1 a1 b1 => simp [mergePair] at hm
  | delete p1 l1 a1 b1 =>
    cases b with
    | insert tb p2 a2 b2 => simp [mergePair] at hm
    | replace tb p2 a2 b2 => simp [mergePair] at hm
    | delete p2 l2 a2 b2 =>
      simp only [mergePair] at hm
      by_cases hp : p1 = p2
      case neg =>
        rw [if_neg hp] at hm
        simp at hm
      rw [if_pos hp] at hm
      subst hp
      simp only [Option.some.injEq] at hm
      subst hm
      simp only [Action.apply] at ha hb ⊢
      by_cases hA : p1 > t.length
      · rw [if_pos hA] at ha
        exact absurd ha (by simp)
      rw [if_neg hA] at ha
      by_cases hB : p1 + l1 > t.length
      · rw [if_pos hB] at ha
        exact absurd ha (by simp)
      rw [if_neg hB] at ha
      simp only [Except.ok.injEq] at ha
      by_cases hC : p1 > t1.length
      · rw [if_pos hC] at hb
        exact absurd hb (by simp)
      rw [if_neg hC] at hb
      by_cases hD : p1 + l2 > t1.length
      · rw [if_pos hD] at hb
        exact absurd hb (by simp)
      rw [if_neg hD] at hb
      simp only [Except.ok.injEq] at hb
      have hlen1 : t1.length = t.length - l1 := by
        rw [← ha]
        simp only [List.length_append, List.length_take, List.length_drop]
        omega
      rw [if_neg hA, if_neg (show ¬ p1 + (l1 + l2) > t.length by omega)]
      congr 1
      rw [← hb, ← ha]
      have hlt : (t.take p1).length = p1 := List.length_take_of_le (by omega)
      have e1 : (t.take p1 ++ t.drop (p1 + l1)).take p1 = t.take p1 :=
        List.take_left' hlt
      have e2 : (t.take p1 ++ t.drop (p1 + l1)).drop (p1 + l2) =
          t.drop (p1 + (l1 + l2)) := by
        rw [List.drop_append_eq_append_drop]
        have hnil : (t.take p1).drop (p1 + l2) = [] := by
          rw [List.drop_eq_nil_iff, hlt]
          omega
        rw [hnil, List.nil_append, hlt, (by omega : p1 + l2 - p1 = l2),
          List.drop_drop]
        congr 1
        omega
      rw [e1, e2]
  | replace ta p1 a1 b1 =>
    cases b with
    | insert tb p2 a2 b2 => simp [mergePair] at hm
    | delete p2 l2 a2 b2 => simp [mergePair] at hm
    | replace tb p2 a2 b2 =>
      simp only [mergePair] at hm
      by_cases hc : p1 = p2 ∧ ta.length ≤ tb.length
      case neg =>
        rw [if_neg hc] at hm
        simp at hm
      rw [if_pos hc] at hm
      obtain ⟨hp, hlen⟩ := hc
      subst hp
      have hbb : b1 < b2 := by
        simp only [Action.fromVersion, Action.toVersion] at h1 h2 h3
        omega
      rw [if_pos hbb] at hm
      simp only [Option.some.injEq] at hm
      subst hm
      simp only [Action.apply] at ha hb ⊢
      by_cases hA : t.length < p1
      · rw [if_pos hA] at ha
        exact absurd ha (by simp)
      rw [if_neg hA] at ha
      simp only [Except.ok.injEq] at ha
      by_cases hC : t1.length < p1
      · rw [if_pos hC] at hb
        exact absurd hb (by simp)
      rw [if_neg hC] at hb
      simp only [Except.ok.injEq] at hb
      rw [if_neg hA]
      congr 1
      rw [← hb, ← ha]
      have hlt : (t.take p1).length = p1 := List.length_take_of_le (by omega)
      have hlA : (t.take p1 ++ ta).length = p1 + ta.length := by
        simp [hlt]
      have e1 : (t.take p1 ++ ta ++ t.drop (p1 + ta.length)).take p1 = t.take p1 := by
        rw [List.append_assoc]
        exact List.take_left' hlt
      have e2 : (t.take p1 ++ ta ++ t.drop (p1 + ta.length)).drop (p1 + tb.length) =
          t.drop (p1 + tb.length) := by
        rw [List.drop_append_eq_append_drop]
        have hnil : (t.take p1 ++ ta).drop (p1 + tb.length) = [] := by
          rw [List.drop_eq_nil_iff, hlA]
          omega
        rw [hnil, List.nil_append, hlA, List.drop_drop]
        congr 1
        omega
      rw [e1, e2]

/-- Helper: replaying over an appended log continues from the replay of
the first part. -/
theorem replay_append (as bs : List Action) (t u : Text) (h : replay as t = .ok u) :
    replay (as ++ bs) t = replay bs u := by
  induction as generalizing t with
  | nil =>
    have ht : t = u := by simpa [replay] using h
    subst ht
    simp
  | cons a rest ih =>
    rw [List.cons_append]
    simp only [replay] at h ⊢
    cases ha : a.apply t with
    | error e =>
      rw [ha] at h
      simp at h
    | ok t1 =>
      rw [ha] at h
      have h2 : replay rest t1 = .ok u := h
      exact ih t1 h2

/-- Helper: compaction preserves the replay result on well-chained
slices; this is the correctness law of the merge policy. -/
theorem replay_optimize : ∀ (as : List Action) (t u : Text),
    WellChained as → replay as t = .ok u → replay (optimize as) t = .ok u := by
  intro as
  induction as using optimize.induct with
  | case1 =>
    intro t u hw hr
    simpa [optimize] using hr
  | case2 a =>
    intro t u hw hr
    simpa [optimize] using hr
  | case3 a b rest m hm ih =>
    intro t u hw hr
    have hopt : optimize (a :: b :: rest) = m :: optimize rest := by
      simp [optimize, hm]
    rw [hopt]
    obtain ⟨hw1, hw2, hw3⟩ := hw
    simp only [replay] at hr
    cases ha : a.apply t with
    | error e =>
      rw [ha] at hr
      simp at hr
    | ok t1 =>
      rw [ha] at hr
      have hr1 : replay (b :: rest) t1 = .ok u := hr
      simp only [replay] at hr1
      cases hb : b.apply t1 with
      | error e =>
        rw [hb] at hr1
        simp at hr1
      | ok t2 =>
        rw [hb] at hr1
        have hr2 : replay rest t2 = .ok u := hr1
        have hmapp := mergePair_apply a b m t t1 t2 hm hw1 hw2
          (wellChained_head _ _ hw3) ha hb
        simp only [replay]
        rw [hmapp]
        exact ih t2 u (wellChained_tail _ _ hw3) hr2
  | case4 a b rest hm ih =>
    intro t u hw hr
    have hopt : optimize (a :: b :: rest) = a :: optimize (b :: rest) := by
      simp [optimize, hm]
    rw [hopt]
    obtain ⟨hw1, hw2, hw3⟩ := hw
    simp only [replay] at hr ⊢
    cases ha : a.apply t with
    | error e =>
      rw [ha] at hr
      simp at hr
    | ok t1 =>
      rw [ha] at hr
      have hr1 : replay (b :: rest) t1 = .ok u := hr
      exact ih t1 u hw3 hr1

/-- Helper: invariant of every state reachable from a freshly built
history: the log is the consecutive version chain of the committed
actions, the version counts them, and replaying the log over the initial
text yields the current text. -/
theorem reach_invariant (init : Text) (h : TextHistory)
    (hr : Reach ⟨init, [], 0⟩ h) :
    ChainedFrom 0 h.actions ∧ h.version = h.actions.length ∧
      replay h.actions init = .ok h.text := by
  induction hr with
  | refl => exact ⟨trivial, rfl, rfl⟩
  | tail h1 h2 hreach hstep ih =>
    obtain ⟨hch, hver, hrep⟩ := ih
    obtain ⟨act, hfv, htv, happ, hacts, hver2⟩ := step_shape _ _ hstep
    refine ⟨?_, ?_, ?_⟩
    · rw [hacts]
      exact chainedFrom_append 0 h1.actions act hch (by omega) (by omega)
    · rw [hver2, hacts, List.length_append]
      simp only [List.length_cons, List.length_nil]
      omega
    · rw [hacts]
      rw [replay_append h1.actions [act] init h1.text hrep]
      simp [replay, happ]

/-- C8: each successful edit advances the version by exactly one, and
after any sequence of successful edits on a history whose log started
empty, the version equals the log length plus the initial version. -/
theorem C8_version_counter :
    (∀ h h2 : TextHistory, Step h h2 → h2.version = h.version + 1) ∧
    (∀ h0 h : TextHistory, Reach h0 h → h0.actions = [] →
      h.version = h.actions.length + h0.version) := by
  constructor
  · intro h h2 hs
    obtain ⟨act, _, _, _, _, hver⟩ := step_shape _ _ hs
    exact hver
  · intro h0 h hr hnil
    induction hr with
    | refl => simp [hnil]
    | tail h1 h2 hreach hstep ih =>
      obtain ⟨act, _, _, _, hacts, hver⟩ := step_shape _ _ hstep
      rw [hver, hacts, List.length_append]
      simp only [List.length_cons, List.length_nil]
      omega

/-- C8 witness: one successful insert from a fresh one-character history. -/
theorem C8_version_counter_witness :
    (TextHistory.mk ['a', 'b'] [Action.insert ['b'] 1 0 1] 1).version =
      (TextHistory.mk ['a', 'b'] [Action.insert ['b'] 1 0 1] 1).actions.length +
        (TextHistory.mk ['a'] [] 0).version ∧
    (TextHistory.mk ['a', 'b'] [Action.insert ['b'] 1 0 1] 1).version =
      (TextHistory.mk ['a'] [] 0).version + 1 :=
  ⟨C8_version_counter.2 (TextHistory.mk ['a'] [] 0) _
      (Reach.tail _ _ Reach.refl (Step.insert _ ['b'] none _ 1 rfl)) rfl,
   C8_version_counter.1 (TextHistory.mk ['a'] [] 0) _
      (Step.insert _ ['b'] none _ 1 rfl)⟩

/-- C1 counterexample: for the EMPTY sequence of successful edits the
round trip fails outright: on a fresh history, `get_actions(0, 0)` does
not return a slice at all but raises the `IndexError` coming from
`self._actions[-1]` on the empty log. -/
theorem C1_counterexample :
    (TextHistory.mk ['h', 'i'] [] 0).get_actions (some 0)
        (some ((TextHistory.mk ['h', 'i'] [] 0).version : Int)) =
      .error .indexError := by decide

/-- C1 (amended to a nonempty sequence of edits): for every fresh
`TextHistory(initial_text)` and every nonempty sequence of successful
insert/delete/replace edits, `get_actions(0, version)` succeeds and
replaying each returned action in order over the initial text reproduces
the current text exactly, even though the returned slice has been
compacted by the merge policy. -/
theorem C1_roundtrip (init : Text) (h : TextHistory)
    (hr : Reach ⟨init, [], 0⟩ h) (hne : h.actions ≠ []) :
    ∃ as, h.get_actions (some 0) (some (h.version : Int)) = .ok as ∧
      replay as init = .ok h.text := by
  obtain ⟨hch, hver, hrep⟩ := reach_invariant init h hr
  refine ⟨optimize h.actions, ?_, ?_⟩
  · cases hl : h.actions.getLast? with
    | none => exact absurd (List.getLast?_eq_none_iff.mp hl) hne
    | some last =>
      have hlto : last.toVersion = h.actions.length := by
        have := chainedFrom_getLast 0 h.actions last hch hl
        omega
      have hfilter : h.actions.filter (fun a =>
          decide (((some (0 : Int)).getD 0) ≤ (a.fromVersion : Int)) &&
            decide ((a.toVersion : Int) ≤ (h.version : Int))) = h.actions := by
        apply List.filter_eq_self.mpr
        intro a ha
        have hb := chainedFrom_toVersion_le 0 h.actions hch a ha
        simp only [Option.getD_some, Bool.and_eq_true, decide_eq_true_eq]
        refine ⟨Int.natCast_nonneg _, ?_⟩
        rw [hver]
        exact_mod_cast (by omega : a.toVersion ≤ h.actions.length)
      simp only [TextHistory.get_actions, Option.getD_some, hl]
      rw [if_neg (by
        push_neg
        exact ⟨le_refl 0, Int.natCast_nonneg _⟩)]
      rw [if_neg (by
        simp only [gt_iff_lt, not_lt]
        exact Int.natCast_nonneg _)]
      rw [if_neg (by
        simp only [gt_iff_lt, not_lt]
        exact_mod_cast (by omega : h.version ≤ last.toVersion))]
      rw [show (h.actions.filter fun a =>
          decide (((0 : Int)) ≤ (a.fromVersion : Int)) &&
            decide ((a.toVersion : Int) ≤ (h.version : Int))) = h.actions
        from by simpa using hfilter]
  · exact replay_optimize h.actions init h.text
      (chainedFrom_wellChained 0 h.actions hch) hrep

/-- C1 witness: a single insert on a fresh one-character history. -/
theorem C1_roundtrip_witness :
    ∃ as, (TextHistory.mk ['a', 'b'] [Action.insert ['b'] 1 0 1] 1).get_actions
        (some 0)
        (some ((TextHistory.mk ['a', 'b'] [Action.insert ['b'] 1 0 1] 1).version : Int)) =
      .ok as ∧
      replay as ['a'] = .ok (TextHistory.mk ['a', 'b'] [Action.insert ['b'] 1 0 1] 1).text :=
  C1_roundtrip ['a'] _ (Reach.tail _ _ Reach.refl (Step.insert _ ['b'] none _ 1 rfl))
    (by decide)

/-- C7 counterexample: on an empty log, in-range bounds (0, 0) neither
return a compacted slice nor fail with one of the range errors; the call
dies on `self._actions[-1]` with an `IndexError`. -/
theorem C7_counterexample :
    (TextHistory.mk ['a'] [] 0).get_actions (some 0) (some 0) = .error .indexError ∧
    Err.indexError ≠ Err.negVersion ∧ Err.indexError ≠ Err.badRange ∧
      Err.indexError ≠ Err.outOfRange := by decide

/-- C7 (amended to nonempty logs): with at least one logged action,
`get_actions` with supplied bounds fails exactly when a bound is
negative, the bounds are inverted, or `to_version` exceeds the
`to_version` of the last logged action (the latest recorded version);
for in-range bounds it returns the log entries whose version range lies
within the bounds, compacted by the merge policy.  On an empty log any
supplied finite `to_version` instead raises an index error. -/
theorem C7_range_check (h : TextHistory) (last : Action)
    (hl : h.actions.getLast? = some last) (fv tv : Int) :
    ((∃ e, h.get_actions (some fv) (some tv) = .error e) ↔
      (fv < 0 ∨ tv < 0 ∨ fv > tv ∨ (last.toVersion : Int) < tv)) ∧
    (¬ (fv < 0 ∨ tv < 0 ∨ fv > tv ∨ (last.toVersion : Int) < tv) →
      h.get_actions (some fv) (some tv) =
        .ok (optimize (h.actions.filter fun a =>
          decide (fv ≤ (a.fromVersion : Int)) &&
            decide ((a.toVersion : Int) ≤ tv)))) := by
  simp only [TextHistory.get_actions, Option.getD_some, hl]
  by_cases hA : fv < 0 ∨ tv < 0
  · rw [if_pos hA]
    constructor
    · constructor
      · intro _
        rcases hA with hA | hA
        · exact Or.inl hA
        · exact Or.inr (Or.inl hA)
      · intro _
        exact ⟨.negVersion, rfl⟩
    · intro hno
      exact absurd (hA.elim Or.inl (fun x => Or.inr (Or.inl x))) hno
  · rw [if_neg hA]
    by_cases hB : fv > tv
    · rw [if_pos hB]
      constructor
      · exact ⟨fun _ => Or.inr (Or.inr (Or.inl hB)), fun _ => ⟨.badRange, rfl⟩⟩
      · intro hno
        exact absurd (Or.inr (Or.inr (Or.inl hB))) hno
    · rw [if_neg hB]
      by_cases hC : tv > (last.toVersion : Int)
      · rw [if_pos hC]
        constructor
        · exact ⟨fun _ => Or.inr (Or.inr (Or.inr hC)), fun _ => ⟨.outOfRange, rfl⟩⟩
        · intro hno
          exact absurd (Or.inr (Or.inr (Or.inr hC))) hno
      · rw [if_neg hC]
        constructor
        · constructor
          · rintro ⟨e, he⟩
            exact absurd he (by simp)
          · intro hD
            rcases hD with h1 | h1 | h1 | h1
            · exact absurd (Or.inl h1) hA
            · exact absurd (Or.inr h1) hA
            · exact absurd h1 hB
            · exact absurd h1 hC
        · intro _
          rfl

/-- C7 witness: in-range bounds on a one-entry log. -/
theorem C7_range_check_witness :
    (TextHistory.mk ['b'] [Action.delete 0 1 0 1] 1).get_actions (some 0) (some 1) =
      .ok [Action.delete 0 1 0 1] :=
  ((C7_range_check (TextHistory.mk ['b'] [Action.delete 0 1 0 1] 1)
      (Action.delete 0 1 0 1) rfl 0 1).2 (by decide)).trans (by decide)

end TextHist
